import Mathlib

/-!
Verification of the STARS4ALL/tessdb-tools reconciliation utilities.

This file gives a shallow embedding, in Lean 4, of the pure computational
core of the repository (MAC-address formatting, row grouping, key-set
reconciliation, the MongoDB list correlation, and the historical-interval
reconstruction over the name_to_mac_t table) and proves or refutes the
frozen specification claims about it.

Python strings that are inspected character by character (MAC addresses)
are embedded as `List Char`; ISO-8601 timestamp strings, which the code
only compares for equality and sorts lexicographically, are embedded as
`Nat` with its linear order; dictionaries appearing as fixed-shape rows
become structures, and dictionaries with a dynamic key set become
association lists.  Fallible Python functions (those that may raise)
return `Option` or `Except`.
-/

set_option maxHeartbeats 1000000

namespace TessdbTools

/-! ## utils.py : MAC address formatting

`formatted_mac` in `utils.py` is
`":".join(f"{int(x, 16):02X}" for x in mac.split(":"))`, raising
`ValueError` when a segment is not parseable by `int(x, 16)` (the
`AttributeError` branch concerns non-string arguments and cannot arise
here since the embedded input is already a character list).

`int(x, 16)` is embedded on hexadecimal literals with an optional single
leading sign (the forms with surrounding whitespace, an `0x` prefix or
underscore separators are not modelled; no caller produces them). -/

/-- The value of a single hexadecimal digit character, if it is one. -/
def hexDigitVal (c : Char) : Option Nat :=
  if '0' ≤ c ∧ c ≤ '9' then some (c.toNat - '0'.toNat)
  else if 'a' ≤ c ∧ c ≤ 'f' then some (c.toNat - 'a'.toNat + 10)
  else if 'A' ≤ c ∧ c ≤ 'F' then some (c.toNat - 'A'.toNat + 10)
  else none

/-- Left fold accumulating the value of a run of hexadecimal digits. -/
def hexFold (acc : Nat) : List Char → Option Nat
  | [] => some acc
  | c :: cs =>
    match hexDigitVal c with
    | some d => hexFold (16 * acc + d) cs
    | none => none

/-- Value of a nonempty unsigned run of hexadecimal digits. -/
def hexDigitsVal : List Char → Option Nat
  | [] => none
  | l => hexFold 0 l

/-- Embedding of Python `int(x, 16)`: optional sign, then a nonempty run
of hexadecimal digits.  `none` stands for `ValueError`. -/
def pyIntHex : List Char → Option Int
  | [] => none
  | c :: cs =>
    if c = '-' then (hexDigitsVal cs).map (fun n : Nat => -(n : Int))
    else if c = '+' then (hexDigitsVal cs).map (fun n : Nat => (n : Int))
    else (hexDigitsVal (c :: cs)).map (fun n : Nat => (n : Int))

/-- The uppercase hexadecimal digit character for `d < 16`. -/
def hexDigitChar (d : Nat) : Char :=
  if d < 10 then Char.ofNat ('0'.toNat + d) else Char.ofNat ('A'.toNat + d - 10)

/-- Little-endian uppercase hexadecimal digits, driven by a fuel
argument so that the definition is structurally recursive (the fuel is
an upper bound on the number, which strictly shrinks under division). -/
def toHexRevAux : Nat → Nat → List Char
  | 0, _ => []
  | _, 0 => []
  | fuel + 1, n + 1 => hexDigitChar ((n + 1) % 16) :: toHexRevAux fuel ((n + 1) / 16)

/-- Little-endian uppercase hexadecimal digits of `n` (empty for `0`). -/
def toHexRev (n : Nat) : List Char :=
  toHexRevAux n n

theorem toHexRevAux_congr :
    ∀ f₁ f₂ m, m ≤ f₁ → m ≤ f₂ → toHexRevAux f₁ m = toHexRevAux f₂ m := by
  intro f₁
  induction f₁ with
  | zero =>
    intro f₂ m h₁ _
    interval_cases m
    cases f₂ <;> rfl
  | succ f ih =>
    intro f₂ m h₁ h₂
    match m, f₂ with
    | 0, f₂ => cases f₂ <;> rfl
    | m + 1, 0 => omega
    | m + 1, f₂ + 1 =>
      show hexDigitChar ((m + 1) % 16) :: toHexRevAux f ((m + 1) / 16) =
        hexDigitChar ((m + 1) % 16) :: toHexRevAux f₂ ((m + 1) / 16)
      have hdiv : (m + 1) / 16 < m + 1 := Nat.div_lt_self (Nat.succ_pos m) (by omega)
      rw [ih f₂ ((m + 1) / 16) (by omega) (by omega)]

theorem toHexRev_zero : toHexRev 0 = [] := rfl

theorem toHexRev_succ (n : Nat) :
    toHexRev (n + 1) = hexDigitChar ((n + 1) % 16) :: toHexRev ((n + 1) / 16) := by
  show toHexRevAux (n + 1) (n + 1) = _
  have hdiv : (n + 1) / 16 < n + 1 := Nat.div_lt_self (Nat.succ_pos n) (by omega)
  show hexDigitChar ((n + 1) % 16) :: toHexRevAux n ((n + 1) / 16) = _
  rw [toHexRevAux_congr n ((n + 1) / 16) ((n + 1) / 16) (by omega) (by omega)]
  rfl

/-- Uppercase hexadecimal rendering of a natural number, as Python
`"%X" % n` produces it. -/
def hexStrUpper (n : Nat) : List Char :=
  if n = 0 then ['0'] else (toHexRev n).reverse

/-- Zero-pad on the left to a minimum width of two characters. -/
def pad02 (l : List Char) : List Char :=
  if 2 ≤ l.length then l else List.replicate (2 - l.length) '0' ++ l

/-- Embedding of the Python format `f"{v:02X}"` on an `int` value: for a
negative value the sign counts towards the width, and `"-"` followed by
at least one digit already fills it, so no padding is ever inserted. -/
def pyFormat02X (v : Int) : List Char :=
  if v < 0 then '-' :: hexStrUpper v.natAbs else pad02 (hexStrUpper v.toNat)

/-- Embedding of Python `str.split(":")`: all segments, empty ones
included; the result is always nonempty. -/
def splitColon : List Char → List (List Char)
  | [] => [[]]
  | c :: cs =>
    if c = ':' then [] :: splitColon cs
    else
      match splitColon cs with
      | s :: ss => (c :: s) :: ss
      | [] => [[c]]

/-- Embedding of Python `":".join(...)`. -/
def joinColon : List (List Char) → List Char
  | [] => []
  | [s] => s
  | s :: ss => s ++ ':' :: joinColon ss

/-- Sequence a list of `Option`s, failing if any entry fails (the
generator inside `":".join` propagating `ValueError`). -/
def seqOption : List (Option α) → Option (List α)
  | [] => some []
  | o :: os => o.bind fun a => (seqOption os).map fun as => a :: as

/-- The parsed values of the colon-separated segments of a MAC string. -/
def segValues (mac : List Char) : Option (List Int) :=
  seqOption ((splitColon mac).map pyIntHex)

/-- Embedding of `utils.formatted_mac`: split on colons, parse each
segment as a hexadecimal integer, re-render each value as `f"{v:02X}"`
and join with colons.  `none` stands for the re-raised `ValueError`. -/
def formatted_mac (mac : List Char) : Option (List Char) :=
  (segValues mac).map (fun vs => joinColon (vs.map pyFormat02X))

/-- Embedding of `utils.is_tess_mac`: every colon-separated segment
parses under `int(x, 16)` and there are exactly six of them. -/
def is_tess_mac (mac : List Char) : Bool :=
  ((splitColon mac).all fun x => (pyIntHex x).isSome) && (splitColon mac).length == 6

/-- Embedding of `utils.is_mac`: a TESS MAC of exactly 17 characters. -/
def is_mac (mac : List Char) : Bool :=
  is_tess_mac mac && mac.length == 17

/-! ### Round-trip lemmas for the hexadecimal rendering -/

theorem hexDigitVal_hexDigitChar {d : Nat} (hd : d < 16) :
    hexDigitVal (hexDigitChar d) = some d := by
  interval_cases d <;> decide

theorem hexDigitChar_ne {d : Nat} (hd : d < 16) :
    hexDigitChar d ≠ ':' ∧ hexDigitChar d ≠ '-' ∧ hexDigitChar d ≠ '+' := by
  interval_cases d <;> decide

theorem toHexRev_mem {n : Nat} {c : Char} (hc : c ∈ toHexRev n) :
    ∃ d, d < 16 ∧ c = hexDigitChar d := by
  induction n using Nat.strong_induction_on with
  | _ n ih =>
    match n with
    | 0 => simp [toHexRev_zero] at hc
    | m + 1 =>
      rw [toHexRev_succ] at hc
      rcases List.mem_cons.mp hc with h | h
      · exact ⟨(m + 1) % 16, Nat.mod_lt _ (by omega), h⟩
      · exact ih ((m + 1) / 16) (Nat.div_lt_self (Nat.succ_pos m) (by omega)) h

theorem hexStrUpper_mem {n : Nat} {c : Char} (hc : c ∈ hexStrUpper n) :
    ∃ d, d < 16 ∧ c = hexDigitChar d := by
  unfold hexStrUpper at hc
  split at hc
  · have hc0 : c = '0' := by simpa using hc
    exact ⟨0, by omega, by rw [hc0]; decide⟩
  · exact toHexRev_mem (List.mem_reverse.mp hc)

theorem hexFold_append (acc : Nat) (l₁ l₂ : List Char) :
    hexFold acc (l₁ ++ l₂) =
      match hexFold acc l₁ with
      | some a => hexFold a l₂
      | none => none := by
  induction l₁ generalizing acc with
  | nil => simp [hexFold]
  | cons c cs ih =>
    simp only [List.cons_append, hexFold]
    cases hexDigitVal c with
    | none => rfl
    | some d => exact ih _

theorem hexFold_toHexRev (n : Nat) :
    ∀ acc, hexFold acc (toHexRev n).reverse =
      some (acc * 16 ^ (toHexRev n).length + n) := by
  induction n using Nat.strong_induction_on with
  | _ n ih =>
    intro acc
    match n with
    | 0 => simp [toHexRev_zero, hexFold]
    | m + 1 =>
      rw [toHexRev_succ]
      have hlt : (m + 1) / 16 < m + 1 := Nat.div_lt_self (Nat.succ_pos m) (by omega)
      simp only [List.reverse_cons, hexFold_append, ih _ hlt acc]
      have hmod : (m + 1) % 16 < 16 := Nat.mod_lt _ (by omega)
      simp only [hexFold, hexDigitVal_hexDigitChar hmod, List.length_cons]
      congr 1
      have := Nat.div_add_mod (m + 1) 16
      ring_nf
      omega

theorem hexDigitsVal_hexStrUpper (n : Nat) :
    hexDigitsVal (hexStrUpper n) = some n := by
  unfold hexStrUpper
  split
  · subst n; decide
  · rename_i hn
    have hne : toHexRev n ≠ [] := by
      match n with
      | 0 => exact absurd rfl hn
      | m + 1 => rw [toHexRev_succ]; simp
    have : (toHexRev n).reverse ≠ [] := by simpa using hne
    match h : (toHexRev n).reverse with
    | [] => exact absurd h this
    | c :: cs =>
      show hexFold 0 (c :: cs) = some n
      rw [← h, hexFold_toHexRev n 0]
      simp

theorem hexStrUpper_ne_nil (n : Nat) : hexStrUpper n ≠ [] := by
  unfold hexStrUpper
  split
  · simp
  · rename_i hn
    match n with
    | 0 => exact absurd rfl hn
    | m + 1 => rw [toHexRev_succ]; simp

theorem hexDigitsVal_pad02 {l : List Char} (hl : l ≠ []) :
    hexDigitsVal (pad02 l) = hexDigitsVal l := by
  unfold pad02
  split
  · rfl
  · rename_i hlen
    match l, hl with
    | c :: cs, _ =>
      match cs with
      | [] =>
        show hexDigitsVal ['0', c] = hexDigitsVal [c]
        show hexFold 0 ['0', c] = hexFold 0 [c]
        simp [hexFold, hexDigitVal]
      | c' :: cs' => simp [List.length_cons] at hlen

theorem pad02_ne_nil (l : List Char) : pad02 l ≠ [] := by
  unfold pad02
  split
  · rename_i h
    match l with
    | [] => simp at h
    | c :: cs => simp
  · rename_i h
    intro hcontra
    have hlen := congrArg List.length hcontra
    simp [List.length_append, List.length_replicate] at hlen
    omega

theorem pyIntHex_cons_eq {c : Char} (cs : List Char) :
    pyIntHex (c :: cs) =
      if c = '-' then (hexDigitsVal cs).map (fun n : Nat => -(n : Int))
      else if c = '+' then (hexDigitsVal cs).map (fun n : Nat => (n : Int))
      else (hexDigitsVal (c :: cs)).map (fun n : Nat => (n : Int)) := rfl

/-- Re-parsing a value formatted with `f"{v:02X}"` recovers the value. -/
theorem pyIntHex_pyFormat02X (v : Int) : pyIntHex (pyFormat02X v) = some v := by
  unfold pyFormat02X
  split
  · rename_i hv
    rw [pyIntHex_cons_eq, if_pos rfl, hexDigitsVal_hexStrUpper]
    simp only [Option.map_some']
    congr 1
    omega
  · rename_i hv
    have hne := pad02_ne_nil (hexStrUpper v.toNat)
    match hp : pad02 (hexStrUpper v.toNat) with
    | [] => exact absurd hp hne
    | c :: cs =>
      have hcmem : c ∈ pad02 (hexStrUpper v.toNat) := by rw [hp]; simp
      have hcnot : c ≠ '-' ∧ c ≠ '+' := by
        unfold pad02 at hcmem
        split at hcmem
        · rcases hexStrUpper_mem hcmem with ⟨d, hd, hcd⟩
          exact ⟨hcd ▸ (hexDigitChar_ne hd).2.1, hcd ▸ (hexDigitChar_ne hd).2.2⟩
        · rcases List.mem_append.mp hcmem with h | h
          · have := List.eq_of_mem_replicate h
            subst this
            exact ⟨by decide, by decide⟩
          · rcases hexStrUpper_mem h with ⟨d, hd, hcd⟩
            exact ⟨hcd ▸ (hexDigitChar_ne hd).2.1, hcd ▸ (hexDigitChar_ne hd).2.2⟩
      rw [pyIntHex_cons_eq, if_neg hcnot.1, if_neg hcnot.2]
      rw [← hp, hexDigitsVal_pad02 (hexStrUpper_ne_nil _), hexDigitsVal_hexStrUpper]
      simp only [Option.map_some']
      congr 1
      exact Int.toNat_of_nonneg (by omega)

/-- No character of a `f"{v:02X}"` rendering is a colon. -/
theorem colon_not_mem_pyFormat02X (v : Int) : ':' ∉ pyFormat02X v := by
  intro hmem
  unfold pyFormat02X at hmem
  split at hmem
  · rcases List.mem_cons.mp hmem with h | h
    · exact absurd h.symm (by decide)
    · rcases hexStrUpper_mem h with ⟨d, hd, hcd⟩
      exact (hexDigitChar_ne hd).1 hcd.symm
  · unfold pad02 at hmem
    split at hmem
    · rcases hexStrUpper_mem hmem with ⟨d, hd, hcd⟩
      exact (hexDigitChar_ne hd).1 hcd.symm
    · rcases List.mem_append.mp hmem with h | h
      · exact absurd (List.eq_of_mem_replicate h) (by decide)
      · rcases hexStrUpper_mem h with ⟨d, hd, hcd⟩
        exact (hexDigitChar_ne hd).1 hcd.symm

/-! ### Split / join round trip -/

theorem splitColon_cons_eq (c : Char) (cs : List Char) :
    splitColon (c :: cs) =
      if c = ':' then [] :: splitColon cs
      else
        match splitColon cs with
        | s :: ss => (c :: s) :: ss
        | [] => [[c]] := rfl

theorem splitColon_ne_nil (l : List Char) : splitColon l ≠ [] := by
  match l with
  | [] => simp [splitColon]
  | c :: cs =>
    rw [splitColon_cons_eq]
    split
    · simp
    · match h : splitColon cs with
      | [] => simp
      | s :: ss => simp

theorem splitColon_no_colon {p : List Char} (hp : ':' ∉ p) :
    splitColon p = [p] := by
  induction p with
  | nil => rfl
  | cons c cs ih =>
    have hc : c ≠ ':' := fun h => hp (h ▸ List.mem_cons_self c cs)
    have hcs : ':' ∉ cs := fun h => hp (List.mem_cons_of_mem c h)
    rw [splitColon_cons_eq, if_neg hc, ih hcs]

theorem splitColon_append_colon {p : List Char} (hp : ':' ∉ p) (r : List Char) :
    splitColon (p ++ ':' :: r) = p :: splitColon r := by
  induction p with
  | nil =>
    show splitColon (':' :: r) = [] :: splitColon r
    rw [splitColon_cons_eq, if_pos rfl]
  | cons c cs ih =>
    have hc : c ≠ ':' := fun h => hp (h ▸ List.mem_cons_self c cs)
    have hcs : ':' ∉ cs := fun h => hp (List.mem_cons_of_mem c h)
    show splitColon (c :: (cs ++ ':' :: r)) = (c :: cs) :: splitColon r
    rw [splitColon_cons_eq, if_neg hc, ih hcs]

theorem splitColon_joinColon {parts : List (List Char)} (hne : parts ≠ [])
    (hnc : ∀ p ∈ parts, ':' ∉ p) :
    splitColon (joinColon parts) = parts := by
  induction parts with
  | nil => exact absurd rfl hne
  | cons p rest ih =>
    match rest with
    | [] =>
      show splitColon (joinColon [p]) = [p]
      exact splitColon_no_colon (hnc p (List.mem_cons_self p []))
    | q :: rest' =>
      show splitColon (p ++ ':' :: joinColon (q :: rest')) = p :: (q :: rest')
      rw [splitColon_append_colon (hnc p (List.mem_cons_self _ _))]
      rw [ih (by simp) (fun x hx => hnc x (List.mem_cons_of_mem p hx))]

theorem seqOption_map_some (l : List α) : seqOption (l.map some) = some l := by
  induction l with
  | nil => rfl
  | cons a as ih => simp [seqOption, ih]

theorem seqOption_length {os : List (Option α)} {as : List α}
    (h : seqOption os = some as) : as.length = os.length := by
  induction os generalizing as with
  | nil =>
    simp only [seqOption, Option.some_inj] at h
    simp [← h]
  | cons o os' ih =>
    simp only [seqOption, Option.bind_eq_some, Option.map_eq_some'] at h
    rcases h with ⟨a, ha, as', hseq, heq⟩
    subst heq
    simp [ih hseq]


theorem segValues_some_ne_nil {s : List Char} {vs : List Int}
    (h : segValues s = some vs) : vs ≠ [] := by
  intro h0
  subst h0
  have hlen := seqOption_length h
  simp only [List.length_map, List.length_nil] at hlen
  exact splitColon_ne_nil s (List.eq_nil_of_length_eq_zero hlen.symm)

theorem segValues_join_format {vs : List Int} (hne : vs ≠ []) :
    segValues (joinColon (vs.map pyFormat02X)) = some vs := by
  unfold segValues
  have hsplit : splitColon (joinColon (vs.map pyFormat02X)) = vs.map pyFormat02X := by
    refine splitColon_joinColon (by simpa using hne) ?_
    intro p hp
    rcases List.mem_map.mp hp with ⟨v, _, rfl⟩
    exact colon_not_mem_pyFormat02X v
  rw [hsplit, List.map_map]
  have hmap : vs.map (pyIntHex ∘ pyFormat02X) = vs.map some := by
    induction vs with
    | nil => rfl
    | cons v vs ih =>
      simp only [List.map_cons, List.cons.injEq]
      exact ⟨pyIntHex_pyFormat02X v, by simpa using fun a ha => pyIntHex_pyFormat02X a⟩
  rw [hmap, seqOption_map_some]

/-- **C4.** `formatted_mac` is canonicalizing: whenever it succeeds, its
output is a fixed point (re-applying it succeeds and returns the same
string), and the output depends only on the numeric values denoted by
the colon-separated segments of the input, so two accepted inputs whose
segments denote the same values are sent to the same output string. -/
theorem formatted_mac_canonicalizing :
    (∀ s t, formatted_mac s = some t → formatted_mac t = some t) ∧
    (∀ s₁ s₂ vs, segValues s₁ = some vs → segValues s₂ = some vs →
      formatted_mac s₁ = formatted_mac s₂) := by
  constructor
  · intro s t h
    obtain ⟨vs, hvs, ht⟩ := Option.map_eq_some'.mp h
    subst ht
    unfold formatted_mac
    rw [segValues_join_format (segValues_some_ne_nil hvs)]
    rfl
  · intro s₁ s₂ vs h₁ h₂
    unfold formatted_mac
    rw [h₁, h₂]

/-- Witness for **C4** at a concrete input: `"1:2"` is accepted, its
canonical form is `"01:02"`, and that form is a fixed point. -/
theorem formatted_mac_canonicalizing_witness :
    formatted_mac ('0' :: '1' :: ':' :: '0' :: '2' :: []) =
      some ('0' :: '1' :: ':' :: '0' :: '2' :: []) :=
  formatted_mac_canonicalizing.1 ('1' :: ':' :: '2' :: [])
    ('0' :: '1' :: ':' :: '0' :: '2' :: []) (by decide)

/-- **C9.** The validation in `formatted_mac` is weaker than the MAC
predicates: `"1:2"` has only two segments yet is accepted, producing
`"01:02"`, which fails `is_mac`; `"100:0:0:0:0:0"` has a segment whose
value exceeds `0xFF` and is accepted, producing `"100:00:00:00:00:00"`
whose first segment has three characters and which also fails `is_mac`
(both inputs fail `is_mac` themselves as well). -/
theorem formatted_mac_weaker_than_is_mac :
    formatted_mac ('1' :: ':' :: '2' :: []) =
        some ('0' :: '1' :: ':' :: '0' :: '2' :: []) ∧
    is_mac ('0' :: '1' :: ':' :: '0' :: '2' :: []) = false ∧
    is_mac ('1' :: ':' :: '2' :: []) = false ∧
    formatted_mac ("100:0:0:0:0:0".toList) = some ("100:00:00:00:00:00".toList) ∧
    is_mac ("100:00:00:00:00:00".toList) = false ∧
    ((splitColon ("100:00:00:00:00:00".toList)).headD []).length = 3 ∧
    is_mac ("100:0:0:0:0:0".toList) = false := by
  refine ⟨by decide, by decide, by decide, by decide, by decide, by decide, by decide⟩


/-! ## dbutils.py : grouping and key-set reconciliation

`group_by` folds the rows into a `collections.defaultdict(list)`,
skipping `None` rows; a Python dict is embedded as an association list
in key insertion order.  `common_A_B_items` and `in_A_not_in_B` work on
the key sets of two dicts; a Python `set` is embedded as a `Finset`. -/

/-- One `result[row[key]].append(row)` step of `dbutils.group_by` on the
accumulated `defaultdict(list)`. -/
def addToGroup [DecidableEq κ] : List (κ × List ρ) → κ → ρ → List (κ × List ρ)
  | [], k, r => [(k, [r])]
  | (k₀, g) :: rest, k, r =>
    if k = k₀ then (k₀, g ++ [r]) :: rest else (k₀, g) :: addToGroup rest k r

/-- Embedding of `dbutils.group_by`: fold over the rows, appending every
non-`None` row to the group of its `row[key]` value and skipping `None`
rows (which are only logged). -/
def group_by [DecidableEq κ] (iterable : List (Option ρ)) (key : ρ → κ) :
    List (κ × List ρ) :=
  iterable.foldl
    (fun acc row =>
      match row with
      | none => acc
      | some r => addToGroup acc (key r) r)
    []

/-- Reading one group of the grouped result (`[]` when the key is absent,
as for a fresh `defaultdict(list)` entry). -/
def lookupGroup [DecidableEq κ] : List (κ × List ρ) → κ → List ρ
  | [], _ => []
  | (k₀, g) :: rest, k => if k = k₀ then g else lookupGroup rest k

/-- All rows stored in the grouped result, in group order. -/
def joinGroups (gs : List (κ × List ρ)) : List ρ :=
  (gs.map Prod.snd).flatten

theorem lookupGroup_addToGroup [DecidableEq κ] (acc : List (κ × List ρ))
    (k₀ : κ) (r : ρ) (k : κ) :
    lookupGroup (addToGroup acc k₀ r) k =
      if k = k₀ then lookupGroup acc k ++ [r] else lookupGroup acc k := by
  induction acc with
  | nil =>
    show lookupGroup [(k₀, [r])] k = _
    by_cases h : k = k₀ <;> simp [lookupGroup, h]
  | cons p rest ih =>
    obtain ⟨k₁, g⟩ := p
    show lookupGroup
        (if k₀ = k₁ then (k₁, g ++ [r]) :: rest
         else (k₁, g) :: addToGroup rest k₀ r) k = _
    by_cases h01 : k₀ = k₁
    · rw [if_pos h01]
      subst h01
      by_cases hk : k = k₀ <;> simp [lookupGroup, hk]
    · rw [if_neg h01]
      by_cases hk : k = k₁
      · subst hk
        rw [if_neg (fun hc : k = k₀ => h01 hc.symm)]
        simp [lookupGroup]
      · simp only [lookupGroup, if_neg hk]
        exact ih

theorem keys_addToGroup [DecidableEq κ] (acc : List (κ × List ρ)) (k₀ : κ) (r : ρ) :
    (addToGroup acc k₀ r).map Prod.fst =
      if k₀ ∈ acc.map Prod.fst then acc.map Prod.fst
      else acc.map Prod.fst ++ [k₀] := by
  induction acc with
  | nil => simp [addToGroup]
  | cons p rest ih =>
    obtain ⟨k₁, g⟩ := p
    show ((if k₀ = k₁ then (k₁, g ++ [r]) :: rest
           else (k₁, g) :: addToGroup rest k₀ r).map Prod.fst) = _
    by_cases h01 : k₀ = k₁
    · subst h01
      simp [List.map_cons]
    · rw [if_neg h01]
      simp only [List.map_cons, ih, List.mem_cons]
      by_cases hmem : k₀ ∈ rest.map Prod.fst
      · simp [hmem, h01]
      · simp [hmem, h01]

theorem joinGroups_addToGroup [DecidableEq κ] (acc : List (κ × List ρ))
    (k₀ : κ) (r : ρ) :
    List.Perm (joinGroups (addToGroup acc k₀ r)) (joinGroups acc ++ [r]) := by
  induction acc with
  | nil => simp [addToGroup, joinGroups]
  | cons p rest ih =>
    obtain ⟨k₁, g⟩ := p
    show List.Perm
      (joinGroups (if k₀ = k₁ then (k₁, g ++ [r]) :: rest
                   else (k₁, g) :: addToGroup rest k₀ r)) _
    by_cases h01 : k₀ = k₁
    · rw [if_pos h01]
      show List.Perm ((g ++ [r]) ++ joinGroups rest) ((g ++ joinGroups rest) ++ [r])
      rw [List.append_assoc, List.append_assoc]
      exact List.Perm.append_left g List.perm_append_comm
    · rw [if_neg h01]
      show List.Perm (g ++ joinGroups (addToGroup rest k₀ r))
        ((g ++ joinGroups rest) ++ [r])
      rw [List.append_assoc]
      exact List.Perm.append_left g ih

theorem lookupGroup_group_by_aux [DecidableEq κ] (key : ρ → κ)
    (l : List (Option ρ)) :
    ∀ acc k,
      lookupGroup
        (l.foldl
          (fun acc row =>
            match row with
            | none => acc
            | some r => addToGroup acc (key r) r)
          acc) k =
      lookupGroup acc k ++ (l.filterMap id).filter fun r => decide (key r = k) := by
  induction l with
  | nil => intro acc k; simp
  | cons o tl ih =>
    intro acc k
    cases o with
    | none => simpa using ih acc k
    | some r =>
      show lookupGroup (tl.foldl _ (addToGroup acc (key r) r)) k = _
      rw [ih (addToGroup acc (key r) r) k, lookupGroup_addToGroup]
      by_cases hk : k = key r
      · subst hk
        simp [List.filterMap_cons, List.filter_cons, List.append_assoc]
      · have hrk : ¬ key r = k := fun hc => hk hc.symm
        simp [List.filterMap_cons, List.filter_cons, hrk, hk]

theorem joinGroups_group_by_aux [DecidableEq κ] (key : ρ → κ)
    (l : List (Option ρ)) :
    ∀ acc,
      List.Perm
        (joinGroups
          (l.foldl
            (fun acc row =>
              match row with
              | none => acc
              | some r => addToGroup acc (key r) r)
            acc))
        (joinGroups acc ++ l.filterMap id) := by
  induction l with
  | nil => intro acc; simp
  | cons o tl ih =>
    intro acc
    cases o with
    | none => simpa using ih acc
    | some r =>
      show List.Perm (joinGroups (tl.foldl _ (addToGroup acc (key r) r))) _
      have h1 := ih (addToGroup acc (key r) r)
      have h2 : List.Perm (joinGroups (addToGroup acc (key r) r) ++ tl.filterMap id)
          ((joinGroups acc ++ [r]) ++ tl.filterMap id) :=
        List.Perm.append_right _ (joinGroups_addToGroup acc (key r) r)
      have h3 : (joinGroups acc ++ [r]) ++ tl.filterMap id =
          joinGroups acc ++ (some r :: tl).filterMap id := by
        simp [List.filterMap_cons, List.append_assoc]
      exact (h1.trans h2).trans (h3 ▸ List.Perm.refl _)

theorem keys_group_by_nodup_aux [DecidableEq κ] (key : ρ → κ)
    (l : List (Option ρ)) :
    ∀ acc, (acc.map Prod.fst).Nodup →
      ((l.foldl
        (fun acc row =>
          match row with
          | none => acc
          | some r => addToGroup acc (key r) r)
        acc).map Prod.fst).Nodup := by
  induction l with
  | nil => intro acc h; simpa using h
  | cons o tl ih =>
    intro acc h
    cases o with
    | none => simpa using ih acc h
    | some r =>
      show ((tl.foldl _ (addToGroup acc (key r) r)).map Prod.fst).Nodup
      refine ih _ ?_
      rw [keys_addToGroup]
      by_cases hmem : key r ∈ acc.map Prod.fst
      · simpa [hmem] using h
      · rw [if_neg hmem]
        simp [List.nodup_append, h, hmem]

theorem keys_group_by_mem_aux [DecidableEq κ] (key : ρ → κ)
    (l : List (Option ρ)) :
    ∀ acc k,
      (k ∈ (l.foldl
        (fun acc row =>
          match row with
          | none => acc
          | some r => addToGroup acc (key r) r)
        acc).map Prod.fst ↔
      k ∈ acc.map Prod.fst ∨ k ∈ (l.filterMap id).map key) := by
  induction l with
  | nil => intro acc k; simp
  | cons o tl ih =>
    intro acc k
    cases o with
    | none => simpa using ih acc k
    | some r =>
      show k ∈ (tl.foldl _ (addToGroup acc (key r) r)).map Prod.fst ↔ _
      rw [ih (addToGroup acc (key r) r) k, keys_addToGroup]
      by_cases hmem : key r ∈ acc.map Prod.fst
      · rw [if_pos hmem]
        simp only [List.filterMap_cons, id, List.map_cons, List.mem_cons]
        constructor
        · rintro (h | h)
          · exact Or.inl h
          · exact Or.inr (Or.inr h)
        · rintro (h | h | h)
          · exact Or.inl h
          · exact Or.inl (h ▸ hmem)
          · exact Or.inr h
      · rw [if_neg hmem]
        simp only [List.mem_append, List.mem_singleton, List.filterMap_cons, id,
          List.map_cons, List.mem_cons]
        tauto

/-- **C10.** `group_by` partitions the non-`None` rows: the group at
key `k` is exactly the subsequence of non-`None` rows whose key is `k`
(hence rows keep their relative input order and sit in the group indexed
by their own key), the group keys are pairwise distinct and are exactly
the keys occurring among the non-`None` rows, and all groups together
contain exactly the non-`None` rows (so each appears exactly once and
`None` rows appear nowhere). -/
theorem group_by_partitions [DecidableEq κ] (iterable : List (Option ρ))
    (key : ρ → κ) :
    (∀ k, lookupGroup (group_by iterable key) k =
      (iterable.filterMap id).filter fun r => decide (key r = k)) ∧
    ((group_by iterable key).map Prod.fst).Nodup ∧
    (∀ k, k ∈ (group_by iterable key).map Prod.fst ↔
      k ∈ (iterable.filterMap id).map key) ∧
    List.Perm (joinGroups (group_by iterable key)) (iterable.filterMap id) := by
  refine ⟨fun k => ?_, ?_, fun k => ?_, ?_⟩
  · rw [group_by, lookupGroup_group_by_aux]
    rfl
  · exact keys_group_by_nodup_aux key iterable [] (by simp)
  · have h := keys_group_by_mem_aux key iterable [] k
    rw [group_by]
    simpa using h
  · have h := joinGroups_group_by_aux key iterable []
    rw [group_by]
    simpa [joinGroups] using h

/-- Embedding of `dbutils.common_A_B_items`:
`set(map_A.keys()).intersection(set(map_B.keys()))`, with dicts as
association lists keyed by strings and Python sets as finsets. -/
def common_A_B_items (map_A : List (String × α)) (map_B : List (String × β)) :
    Finset String :=
  (map_A.map Prod.fst).toFinset ∩ (map_B.map Prod.fst).toFinset

/-- Embedding of `dbutils.in_A_not_in_B`:
`set(map_A.keys()) - set(map_B.keys())`. -/
def in_A_not_in_B (map_A : List (String × α)) (map_B : List (String × β)) :
    Finset String :=
  (map_A.map Prod.fst).toFinset \ (map_B.map Prod.fst).toFinset

/-- The key set of an embedded dict. -/
def dictKeys (d : List (String × α)) : Finset String :=
  (d.map Prod.fst).toFinset

/-- **C8.** `common_A_B_items` is the intersection of the two key sets,
`in_A_not_in_B` is their difference, the two are disjoint, and their
union is exactly the key set of `A`. -/
theorem common_and_diff_partition_keys (A : List (String × α))
    (B : List (String × β)) :
    common_A_B_items A B = dictKeys A ∩ dictKeys B ∧
    in_A_not_in_B A B = dictKeys A \ dictKeys B ∧
    Disjoint (common_A_B_items A B) (in_A_not_in_B A B) ∧
    common_A_B_items A B ∪ in_A_not_in_B A B = dictKeys A := by
  refine ⟨rfl, rfl, ?_, ?_⟩
  · rw [Finset.disjoint_left]
    intro a ha hb
    rw [common_A_B_items, Finset.mem_inter] at ha
    rw [in_A_not_in_B, Finset.mem_sdiff] at hb
    exact hb.2 ha.2
  · ext a
    rw [common_A_B_items, in_A_not_in_B, dictKeys]
    simp only [Finset.mem_union, Finset.mem_inter, Finset.mem_sdiff]
    tauto

/-! ## zptess.py and tessdb.py : row remapping with MAC validation

The remap functions wrap `formatted_mac` in a `try/except` and return
`None` on failure; rows are fixed-shape SQL tuples, embedded as
structures whose non-MAC columns are carried as opaque strings. -/

/-- A `SELECT DISTINCT mac_address, valid_state, zp1, valid_since,
registered FROM tess_t` row (`zptess._photometers_from_tessdb1/2`). -/
structure TessTRow where
  mac_address : List Char
  valid_state : String
  zp1 : String
  valid_since : String
  registered : String

/-- The remapped tessdb photometer dict built by
`zptess.tessdb_remap_info`. -/
structure TessTPhot where
  mac : List Char
  tessdb_state : String
  tessdb_zp : String
  tessdb_date : String
  tessdb_registered : String
deriving DecidableEq

/-- A `SELECT mac, zero_point, session, name, calibration FROM summary_v`
row (`zptess._photometers_from_zptess`). -/
structure SummaryRow where
  mac : List Char
  zero_point : String
  session : String
  name : String
  calibration : String

/-- The remapped zptess photometer dict built by
`zptess.zptess_remap_info`. -/
structure ZptessPhot where
  mac : List Char
  zptess_zp : String
  zptess_date : String
  zptess_name : String
  zptess_method : String
deriving DecidableEq

/-- A `(name, mac_address, zero_point, filter)` row feeding
`tessdb.tessdb_remap_info`. -/
structure NameMacZpRow where
  name : String
  mac_address : List Char
  zero_point : String
  filter : String

/-- The remapped photometer dict built by `tessdb.tessdb_remap_info`. -/
structure NameMacZpPhot where
  mac : List Char
  zero_point : String
  filter : String
  name : String
deriving DecidableEq

namespace Zptess

/-- Embedding of `zptess.tessdb_remap_info`: `None` when
`formatted_mac` raises (the `except Exception` branch), otherwise the
row with its MAC replaced by the canonical form. -/
def tessdb_remap_info (row : TessTRow) : Option TessTPhot :=
  match formatted_mac row.mac_address with
  | none => none
  | some m => some ⟨m, row.valid_state, row.zp1, row.valid_since, row.registered⟩

/-- Embedding of `zptess.zptess_remap_info`. -/
def zptess_remap_info (row : SummaryRow) : Option ZptessPhot :=
  match formatted_mac row.mac with
  | none => none
  | some m => some ⟨m, row.zero_point, row.session, row.name, row.calibration⟩

end Zptess

namespace Tessdb

/-- Embedding of `tessdb.tessdb_remap_info`: `None` when
`formatted_mac` raises `ValueError` (the only exception the embedded
`formatted_mac` produces); the Python body re-evaluates
`formatted_mac(row[1])` once more after the guarded call, with the same
result, so it is embedded as a single evaluation. -/
def tessdb_remap_info (row : NameMacZpRow) : Option NameMacZpPhot :=
  match formatted_mac row.mac_address with
  | none => none
  | some m => some ⟨m, row.zero_point, row.filter, row.name⟩

end Tessdb

/-- **C7.** Rows with malformed MAC addresses are skipped, not fatal:
each remap function returns `None` exactly when `formatted_mac` fails on
the row MAC, and grouping the remapped rows by MAC drops the `None`
rows, so the groups together hold exactly the successfully remapped
rows. -/
theorem malformed_macs_skipped :
    (∀ row : TessTRow,
      (Zptess.tessdb_remap_info row = none ↔ formatted_mac row.mac_address = none)) ∧
    (∀ row : SummaryRow,
      (Zptess.zptess_remap_info row = none ↔ formatted_mac row.mac = none)) ∧
    (∀ row : NameMacZpRow,
      (Tessdb.tessdb_remap_info row = none ↔ formatted_mac row.mac_address = none)) ∧
    (∀ rows : List SummaryRow,
      List.Perm
        (joinGroups (group_by (rows.map Zptess.zptess_remap_info) (fun p => p.mac)))
        (rows.filterMap Zptess.zptess_remap_info) ∧
      ∀ x, x ∈ joinGroups
          (group_by (rows.map Zptess.zptess_remap_info) (fun p => p.mac)) ↔
        ∃ raw, raw ∈ rows ∧ Zptess.zptess_remap_info raw = some x) := by
  refine ⟨fun row => ?_, fun row => ?_, fun row => ?_, fun rows => ⟨?_, fun x => ?_⟩⟩
  · rw [Zptess.tessdb_remap_info]
    cases formatted_mac row.mac_address <;> simp
  · rw [Zptess.zptess_remap_info]
    cases formatted_mac row.mac <;> simp
  · rw [Tessdb.tessdb_remap_info]
    cases formatted_mac row.mac_address <;> simp
  · have h := (group_by_partitions (rows.map Zptess.zptess_remap_info)
      (fun p => p.mac)).2.2.2
    have hfm : (rows.map Zptess.zptess_remap_info).filterMap id =
        rows.filterMap Zptess.zptess_remap_info := by
      rw [List.filterMap_map]
      rfl
    exact hfm ▸ h
  · have h := (group_by_partitions (rows.map Zptess.zptess_remap_info)
      (fun p => p.mac)).2.2.2
    constructor
    · intro hx
      have hx2 := h.mem_iff.mp hx
      rw [List.filterMap_map] at hx2
      rcases List.mem_filterMap.mp hx2 with ⟨raw, hraw, heq⟩
      exact ⟨raw, hraw, heq⟩
    · rintro ⟨raw, hraw, heq⟩
      refine h.mem_iff.mpr ?_
      rw [List.filterMap_map]
      exact List.mem_filterMap.mpr ⟨raw, hraw, heq⟩

/-! ## mongodb.py : list correlation and item lookup

`mongo_get_all` correlates the row lists of two HTTP endpoints; the two
lists are parameters of the embedding.  `get_item` looks a single row up
by name.  Exceptions become `Except` errors. -/

/-- An entry of the names endpoint: a name and possibly a MAC
(`item[0].get("mac")` yields `None` when absent). -/
structure NameRec where
  name : String
  mac : Option String
deriving DecidableEq

/-- An entry of the details endpoint: a name, an opaque payload for the
remaining keys, and the `mac` slot that `mongo_get_all` assigns. -/
structure MongoDetail (π : Type) where
  name : String
  payload : π
  mac : Option String
deriving DecidableEq

/-- The exceptions `mongo_get_all` can raise. -/
inductive MongoErr
  | listLengthMismatch
  | namesMismatch
deriving DecidableEq

/-- The loop of `mongo_get_all` over `zip(names_list, details_list)`:
stop with `NamesMismatchError` at the first aligned pair with different
names, otherwise store the names entry MAC into the details entry. -/
def mongoZipMac : List NameRec → List (MongoDetail π) → Except MongoErr (List (MongoDetail π))
  | [], ds => .ok ds
  | _ :: _, [] => .ok []
  | n :: ns, d :: ds =>
    if n.name ≠ d.name then .error .namesMismatch
    else (mongoZipMac ns ds).map fun rest => { d with mac := n.mac } :: rest

/-- Embedding of `mongodb.mongo_get_all` on the two fetched lists:
`ListLengthMismatchError` when the lists differ in length, otherwise the
zip loop above returning the updated details list. -/
def mongo_get_all (names_list : List NameRec) (details_list : List (MongoDetail π)) :
    Except MongoErr (List (MongoDetail π)) :=
  if names_list.length ≠ details_list.length then .error .listLengthMismatch
  else mongoZipMac names_list details_list

theorem mongoZipMac_ne_lengthErr (ns : List NameRec) (ds : List (MongoDetail π)) :
    mongoZipMac ns ds ≠ .error .listLengthMismatch := by
  induction ns generalizing ds with
  | nil => simp [mongoZipMac]
  | cons n ns ih =>
    cases ds with
    | nil => simp [mongoZipMac]
    | cons d ds =>
      rw [mongoZipMac]
      by_cases h : n.name = d.name
      · rw [if_neg (by simpa using h)]
        intro hc
        cases hz : mongoZipMac ns ds with
        | ok rest => rw [hz] at hc; exact Except.noConfusion hc
        | error e =>
          rw [hz] at hc
          have : (Except.error e : Except MongoErr (List (MongoDetail π))) =
              .error .listLengthMismatch := hc
          have he : e = .listLengthMismatch := by
            cases this
            rfl
          exact ih ds (hz.trans (by rw [he]))
      · rw [if_pos (by simpa using h)]
        simp

theorem mongoZipMac_ok_of_names_eq (ns : List NameRec) (ds : List (MongoDetail π))
    (hlen : ns.length = ds.length)
    (h : ∀ p ∈ List.zip ns ds, p.1.name = p.2.name) :
    mongoZipMac ns ds = .ok (List.zipWith (fun n d => { d with mac := n.mac }) ns ds) := by
  induction ns generalizing ds with
  | nil =>
    have : ds = [] := List.eq_nil_of_length_eq_zero (by simpa using hlen.symm)
    subst this
    simp [mongoZipMac]
  | cons n ns ih =>
    cases ds with
    | nil => simp at hlen
    | cons d ds =>
      have hhead : n.name = d.name := h (n, d) (by simp [List.zip_cons_cons])
      rw [mongoZipMac, if_neg (by simpa using hhead)]
      rw [ih ds (by simpa using hlen) fun p hp => h p (by simp [List.zip_cons_cons, hp])]
      rfl

theorem mongoZipMac_err_of_mismatch (ns : List NameRec) (ds : List (MongoDetail π))
    (h : ∃ p ∈ List.zip ns ds, p.1.name ≠ p.2.name) :
    mongoZipMac ns ds = .error .namesMismatch := by
  induction ns generalizing ds with
  | nil => simp at h
  | cons n ns ih =>
    cases ds with
    | nil => simp at h
    | cons d ds =>
      rw [mongoZipMac]
      by_cases hhead : n.name = d.name
      · rw [if_neg (by simpa using hhead)]
        have htail : ∃ p ∈ List.zip ns ds, p.1.name ≠ p.2.name := by
          rcases h with ⟨p, hp, hne⟩
          rcases List.mem_cons.mp (by simpa [List.zip_cons_cons] using hp) with h0 | h0
          · subst h0
            exact absurd hhead (by simpa using hne)
          · exact ⟨p, h0, hne⟩
        rw [ih ds htail]
        rfl
      · rw [if_pos (by simpa using hhead)]

/-- **C5.** `mongo_get_all` raises `ListLengthMismatchError` exactly when
the two fetched lists differ in length; with equal lengths it returns
the details list enriched with the aligned MAC values when all aligned
names agree, and raises `NamesMismatchError` when some aligned pair of
names differs. -/
theorem mongo_get_all_spec (names_list : List NameRec)
    (details_list : List (MongoDetail π)) :
    (mongo_get_all names_list details_list = .error .listLengthMismatch ↔
      names_list.length ≠ details_list.length) ∧
    (names_list.length = details_list.length →
      ((∀ p ∈ List.zip names_list details_list, p.1.name = p.2.name) →
        mongo_get_all names_list details_list =
          .ok (List.zipWith (fun n d => { d with mac := n.mac })
            names_list details_list)) ∧
      ((∃ p ∈ List.zip names_list details_list, p.1.name ≠ p.2.name) →
        mongo_get_all names_list details_list = .error .namesMismatch)) := by
  refine ⟨⟨fun h => ?_, fun h => ?_⟩, fun hlen => ⟨fun h => ?_, fun h => ?_⟩⟩
  · by_contra hlen
    rw [mongo_get_all, if_neg (fun hc => hc hlen)] at h
    exact mongoZipMac_ne_lengthErr _ _ h
  · rw [mongo_get_all, if_pos h]
  · rw [mongo_get_all, if_neg (fun hc => hc hlen)]
    exact mongoZipMac_ok_of_names_eq _ _ hlen h
  · rw [mongo_get_all, if_neg (fun hc => hc hlen)]
    exact mongoZipMac_err_of_mismatch _ _ h

/-- Witness for **C5** at concrete inputs: a one-element correlation
succeeds and carries the MAC over, and mismatched lengths raise
`ListLengthMismatchError`. -/
theorem mongo_get_all_spec_witness :
    mongo_get_all [⟨"stars1", some "AA:BB:CC:DD:EE:FF"⟩]
        [(⟨"stars1", 0, none⟩ : MongoDetail Nat)] =
      .ok [⟨"stars1", 0, some "AA:BB:CC:DD:EE:FF"⟩] ∧
    mongo_get_all [⟨"stars1", some "AA:BB:CC:DD:EE:FF"⟩]
        ([] : List (MongoDetail Nat)) = .error .listLengthMismatch := by
  constructor
  · exact ((mongo_get_all_spec [⟨"stars1", some "AA:BB:CC:DD:EE:FF"⟩]
      [(⟨"stars1", 0, none⟩ : MongoDetail Nat)]).2 (by decide)).1 (by decide)
  · exact (mongo_get_all_spec [⟨"stars1", some "AA:BB:CC:DD:EE:FF"⟩]
      ([] : List (MongoDetail Nat))).1.2 (by decide)

/-- A generic row dict for `get_item`: a guaranteed `name` key plus an
arbitrary partial mapping for the other keys. -/
structure PyRow where
  name : String
  fields : String → Option String

/-- The exceptions `get_item` can raise: the failed
`assert len(result) > 0`, `DuplicatesError`, and the `KeyError` of
`result[0][item]`. -/
inductive GetItemErr
  | assertionFailed
  | duplicates
  | keyError
deriving DecidableEq

/-- Embedding of `mongodb.filter_by_names`: rows whose `name` is among
the given names, in order. -/
def filter_by_names (iterable : List PyRow) (names : List String) : List PyRow :=
  iterable.filter fun row => decide (row.name ∈ names)

/-- Embedding of `mongodb.filter_by_name`. -/
def filter_by_name (iterable : List PyRow) (name : String) : List PyRow :=
  filter_by_names iterable [name]

/-- Embedding of `mongodb.get_item`: filter by name, assert at least one
match, raise `DuplicatesError` on more than one, then read the requested
item of the single match. -/
def get_item (iterable : List PyRow) (key item : String) : Except GetItemErr String :=
  match filter_by_name iterable key with
  | [] => .error .assertionFailed
  | [r] =>
    match r.fields item with
    | some v => .ok v
    | none => .error .keyError
  | _ => .error .duplicates

theorem filter_by_name_eq (iterable : List PyRow) (key : String) :
    filter_by_name iterable key = iterable.filter fun row => decide (row.name = key) := by
  rw [filter_by_name, filter_by_names]
  congr 1
  funext row
  simp

/-- **C6.** `get_item` raises `DuplicatesError` exactly when more than
one row of the iterable has its `name` equal to the key, and whenever
exactly one row matches it returns that row's requested item field
unchanged. -/
theorem get_item_spec (iterable : List PyRow) (key item : String) :
    (get_item iterable key item = .error .duplicates ↔
      1 < (iterable.countP fun row => decide (row.name = key))) ∧
    (∀ r, (iterable.filter fun row => decide (row.name = key)) = [r] →
      ∀ v, r.fields item = some v → get_item iterable key item = .ok v) := by
  have hcount : (iterable.countP fun row => decide (row.name = key)) =
      (filter_by_name iterable key).length := by
    rw [filter_by_name_eq, List.countP_eq_length_filter]
  constructor
  · rw [get_item, hcount]
    match hf : filter_by_name iterable key with
    | [] => simp
    | [r] =>
      cases hr : r.fields item <;> simp [hr]
    | r₁ :: r₂ :: rest => simp [Nat.lt_add_of_pos_left, Nat.succ_lt_succ]
  · intro r hr v hv
    have hfb : filter_by_name iterable key = [r] :=
      (filter_by_name_eq iterable key).trans hr
    unfold get_item
    rw [hfb]
    simp [hv]

/-- Witness for **C6** at a concrete input: with exactly one matching
row, `get_item` returns its requested field. -/
theorem get_item_spec_witness :
    get_item
      [⟨"stars1", fun k => if k = "mac" then some "AA" else none⟩,
       ⟨"stars2", fun k => if k = "mac" then some "BB" else none⟩]
      "stars2" "mac" = .ok "BB" := by
  refine (get_item_spec _ "stars2" "mac").2
    ⟨"stars2", fun k => if k = "mac" then some "BB" else none⟩ ?_ "BB" (by simp)
  simp

/-! ## tessdb.py : name_to_mac_t history reconstruction

A `name_to_mac_t` row carries a name, a MAC, a validity interval and a
state.  The code compares the ISO-8601 timestamp strings only for
equality and sorts them lexicographically (`ORDER BY valid_since`),
which on that format agrees with chronological order, so timestamps are
embedded as `Nat`.  SQL leaves the order of rows with equal
`valid_since` unspecified; the embedding fixes it with a stable
insertion sort. -/

/-- A row of the `name_to_mac_t` table. -/
structure NMRec where
  name : String
  mac_address : String
  valid_since : Nat
  valid_until : Nat
  valid_state : String
deriving DecidableEq

/-- The `ORDER BY valid_since` relation. -/
def sinceLE (a b : NMRec) : Prop :=
  a.valid_since ≤ b.valid_since

instance : DecidableRel sinceLE := fun a b => Nat.decLe a.valid_since b.valid_since

instance : IsTotal NMRec sinceLE := ⟨fun a b => Nat.le_total a.valid_since b.valid_since⟩

instance : IsTrans NMRec sinceLE := ⟨fun _ _ _ => Nat.le_trans⟩

/-- `ORDER BY valid_since` on a result set. -/
def sortBySince (l : List NMRec) : List NMRec :=
  List.insertionSort sinceLE l

/-- The WHERE clause of `name_mac_current_history_sql`: filter by name
when a name is given, else by MAC (the query is only ever issued with at
least one of them, enforced by the `assert`). -/
def matchesQuery (name mac : Option String) (r : NMRec) : Bool :=
  match name with
  | some n => decide (r.name = n)
  | none =>
    match mac with
    | some m => decide (r.mac_address = m)
    | none => false

/-- The rows returned by the `name_mac_current_history` query. -/
def currentRows (table : List NMRec) (name mac : Option String) : List NMRec :=
  sortBySince (table.filter (matchesQuery name mac))

/-- One row of the seven-column `SELECT` of
`name_mac_current_history_sql`: when a name is given the first two
columns are `(name, mac_address)`, when a MAC is given they are
`(mac_address, name)`; then the interval, the literal `'+'` contiguity
marker, the state, and `julianday(valid_until) - julianday(valid_since)`. -/
structure HistRow where
  col₀ : String
  col₁ : String
  valid_since : Nat
  valid_until : Nat
  contiguous : String
  valid_state : String
  days : Int
deriving DecidableEq

/-- Build the `SELECT` row from a table row. -/
def toHistRow (byName : Bool) (r : NMRec) : HistRow :=
  if byName then
    ⟨r.name, r.mac_address, r.valid_since, r.valid_until, "+", r.valid_state,
      (r.valid_until : Int) - (r.valid_since : Int)⟩
  else
    ⟨r.mac_address, r.name, r.valid_since, r.valid_until, "+", r.valid_state,
      (r.valid_until : Int) - (r.valid_since : Int)⟩

/-- The marking loop of `name_mac_current_history`: walk the adjacent
pairs, and whenever `history[i][3] != history[i+1][2]` rewrite the
marker of the earlier row to `"-"`, append its `valid_until` to
`break_end_tstamps` and the later row's `valid_since` to
`break_start_tstamps`, all in history order. -/
def markBreaks : List HistRow → List HistRow × List Nat × List Nat
  | [] => ([], [], [])
  | [h] => ([h], [], [])
  | h₁ :: h₂ :: rest =>
    let m := markBreaks (h₂ :: rest)
    if h₁.valid_until ≠ h₂.valid_since then
      ({ h₁ with contiguous := "-" } :: m.1, h₁.valid_until :: m.2.1,
        h₂.valid_since :: m.2.2)
    else (h₁ :: m.1, m.2.1, m.2.2)

/-- The flagged history list is the input list with each row that
disagrees with its successor re-marked, the last row kept as is. -/
theorem markBreaks_fst (l : List HistRow) :
    (markBreaks l).1 =
      ((l.zip l.tail).map fun p =>
        if p.1.valid_until ≠ p.2.valid_since then { p.1 with contiguous := "-" }
        else p.1) ++ l.getLast?.toList := by
  induction l with
  | nil => rfl
  | cons h₁ tl ih =>
    cases tl with
    | nil => rfl
    | cons h₂ rest =>
      show (markBreaks (h₁ :: h₂ :: rest)).1 = _
      rw [markBreaks]
      by_cases hb : h₁.valid_until ≠ h₂.valid_since
      · rw [if_pos hb]
        show { h₁ with contiguous := "-" } :: (markBreaks (h₂ :: rest)).1 = _
        rw [ih]
        simp [List.zip_cons_cons, hb, List.getLast?_cons_cons]
      · rw [if_neg hb]
        show h₁ :: (markBreaks (h₂ :: rest)).1 = _
        rw [ih]
        simp [List.zip_cons_cons, not_not.mp hb, List.getLast?_cons_cons]

/-- The `break_end_tstamps` list collects, in order, the `valid_until`
of every adjacent pair with a gap. -/
theorem markBreaks_breakEnds (l : List HistRow) :
    (markBreaks l).2.1 =
      ((l.zip l.tail).filter fun p =>
        decide (p.1.valid_until ≠ p.2.valid_since)).map fun p => p.1.valid_until := by
  induction l with
  | nil => rfl
  | cons h₁ tl ih =>
    cases tl with
    | nil => rfl
    | cons h₂ rest =>
      show (markBreaks (h₁ :: h₂ :: rest)).2.1 = _
      rw [markBreaks]
      by_cases hb : h₁.valid_until ≠ h₂.valid_since
      · rw [if_pos hb]
        show h₁.valid_until :: (markBreaks (h₂ :: rest)).2.1 = _
        rw [ih]
        simp [List.zip_cons_cons, List.filter_cons, hb]
      · rw [if_neg hb]
        show (markBreaks (h₂ :: rest)).2.1 = _
        rw [ih]
        simp [List.zip_cons_cons, List.filter_cons, hb]

/-- The `break_start_tstamps` list collects, in order, the `valid_since`
of the later row of every adjacent pair with a gap. -/
theorem markBreaks_breakStarts (l : List HistRow) :
    (markBreaks l).2.2 =
      ((l.zip l.tail).filter fun p =>
        decide (p.1.valid_until ≠ p.2.valid_since)).map fun p => p.2.valid_since := by
  induction l with
  | nil => rfl
  | cons h₁ tl ih =>
    cases tl with
    | nil => rfl
    | cons h₂ rest =>
      show (markBreaks (h₁ :: h₂ :: rest)).2.2 = _
      rw [markBreaks]
      by_cases hb : h₁.valid_until ≠ h₂.valid_since
      · rw [if_pos hb]
        show h₂.valid_since :: (markBreaks (h₂ :: rest)).2.2 = _
        rw [ih]
        simp [List.zip_cons_cons, List.filter_cons, hb]
      · rw [if_neg hb]
        show (markBreaks (h₂ :: rest)).2.2 = _
        rw [ih]
        simp [List.zip_cons_cons, List.filter_cons, hb]

theorem markBreaks_fst_getLast (l : List HistRow) (hl : l ≠ []) :
    (markBreaks l).1.getLast? = l.getLast? := by
  rw [markBreaks_fst]
  match hg : l.getLast? with
  | none => exact absurd (List.getLast?_eq_none_iff.mp hg) hl
  | some a =>
    show (_ ++ [a]).getLast? = some a
    exact List.getLast?_concat _

/-- The history list produced by the `name_mac_current_history` query
before the marking loop. -/
def histRows (table : List NMRec) (name mac : Option String) : List HistRow :=
  (currentRows table name mac).map (toHistRow name.isSome)

/-- Embedding of `tessdb.name_mac_current_history`: `none` models the
failing `assert` when name and MAC are both `None`, and the `IndexError`
of `history[-1]` when no row matches; otherwise the marked history, the
two break timestamp lists, and the `truncated` flag
`history[-1][5] == "Expired"` (the marking loop never touches the last
row, so it reads the same state either way). -/
def name_mac_current_history (table : List NMRec) (name mac : Option String) :
    Option (List HistRow × List Nat × List Nat × Bool) :=
  if name = none ∧ mac = none then none
  else
    (markBreaks (histRows table name mac)).1.getLast?.map fun last =>
      ((markBreaks (histRows table name mac)).1,
       (markBreaks (histRows table name mac)).2.1,
       (markBreaks (histRows table name mac)).2.2,
       decide (last.valid_state = "Expired"))

theorem toHistRow_valid_state (b : Bool) (r : NMRec) :
    (toHistRow b r).valid_state = r.valid_state := by
  unfold toHistRow
  split <;> rfl

/-- **C1** (amended: at least one record matches the given name or MAC).
The query rows are the matching records ordered by `valid_since`; the
returned history re-marks exactly the adjacent pairs whose
`valid_until` differs from the successor's `valid_since`, collecting
those `valid_until` values as `break_end_tstamps` and those
`valid_since` values as `break_start_tstamps` in history order; and
`truncated` holds exactly when the last record's state is `Expired`. -/
theorem name_mac_current_history_spec (table : List NMRec)
    (name mac : Option String)
    (hq : (name ≠ none ∧ mac = none) ∨ (name = none ∧ mac ≠ none))
    (hne : currentRows table name mac ≠ []) :
    List.Perm (currentRows table name mac) (table.filter (matchesQuery name mac)) ∧
    List.Sorted sinceLE (currentRows table name mac) ∧
    name_mac_current_history table name mac =
      some
        (((histRows table name mac).zip (histRows table name mac).tail |>.map fun p =>
            if p.1.valid_until ≠ p.2.valid_since then { p.1 with contiguous := "-" }
            else p.1) ++ (histRows table name mac).getLast?.toList,
         ((histRows table name mac).zip (histRows table name mac).tail |>.filter fun p =>
            decide (p.1.valid_until ≠ p.2.valid_since)).map fun p => p.1.valid_until,
         ((histRows table name mac).zip (histRows table name mac).tail |>.filter fun p =>
            decide (p.1.valid_until ≠ p.2.valid_since)).map fun p => p.2.valid_since,
         decide ((currentRows table name mac).getLast?.map NMRec.valid_state =
           some "Expired")) := by
  have hassert : ¬(name = none ∧ mac = none) := by
    rcases hq with ⟨h₁, _⟩ | ⟨_, h₂⟩
    · exact fun hc => h₁ hc.1
    · exact fun hc => h₂ hc.2
  refine ⟨List.perm_insertionSort sinceLE _, List.sorted_insertionSort sinceLE _, ?_⟩
  rw [name_mac_current_history, if_neg hassert]
  have hH : histRows table name mac ≠ [] := by
    intro hc
    exact hne (List.map_eq_nil_iff.mp hc)
  obtain ⟨lastH, hlast⟩ : ∃ a, (histRows table name mac).getLast? = some a := by
    cases hg : (histRows table name mac).getLast? with
    | none => exact absurd (List.getLast?_eq_none_iff.mp hg) hH
    | some a => exact ⟨a, rfl⟩
  rw [markBreaks_fst_getLast _ hH, hlast, Option.map_some']
  obtain ⟨lastR, hlastR, hmap⟩ : ∃ lr, (currentRows table name mac).getLast? = some lr ∧
      toHistRow name.isSome lr = lastH := by
    have := List.getLast?_map (toHistRow name.isSome) (currentRows table name mac)
    rw [show (currentRows table name mac).map (toHistRow name.isSome) =
      histRows table name mac from rfl, hlast] at this
    cases hg : (currentRows table name mac).getLast? with
    | none => rw [hg] at this; exact Option.noConfusion this
    | some lr =>
      rw [hg] at this
      exact ⟨lr, rfl, (Option.some_inj.mp this).symm⟩
  rw [markBreaks_fst, markBreaks_breakEnds, markBreaks_breakStarts, hlast]
  simp only [Option.some_inj, Prod.mk.injEq, true_and]
  rw [hlastR, Option.map_some']
  have hstate : lastH.valid_state = lastR.valid_state := by
    rw [← hmap, toHistRow_valid_state]
  rw [hstate]
  by_cases hs : lastR.valid_state = "Expired" <;> simp [hs]

/-- Witness for the amended **C1** at a concrete two-row history with a
gap: the earlier row is re-marked `"-"`, the gap endpoints are
collected, and `truncated` is false since the last state is `Current`. -/
theorem name_mac_current_history_spec_witness :
    name_mac_current_history
        [⟨"stars1", "AA", 0, 5, "Expired"⟩, ⟨"stars1", "BB", 6, 9, "Current"⟩]
        (some "stars1") none =
      some
        ([⟨"stars1", "AA", 0, 5, "-", "Expired", 5⟩,
          ⟨"stars1", "BB", 6, 9, "+", "Current", 3⟩], [5], [6], false) := by
  refine ((name_mac_current_history_spec
    [⟨"stars1", "AA", 0, 5, "Expired"⟩, ⟨"stars1", "BB", 6, 9, "Current"⟩]
    (some "stars1") none (Or.inl ⟨by decide, rfl⟩) (by decide)).2.2).trans ?_
  decide

/-- Counterexample to **C1** as frozen: on a table state with no
matching record (here the empty table) the function does not return the
empty matching set; `history[-1]` raises `IndexError`, embedded as
`none`. -/
theorem name_mac_current_history_empty_raises :
    name_mac_current_history ([] : List NMRec) (some "stars1") none = none := by
  decide

/-! ### photometer classification: the complicated set

`photometers_complicated` takes the rows of `photometers_not_easy` and
removes, as sets of `(name, mac, valid_since, valid_until, valid_state)`
value tuples, the rows returned by `photometers_repaired` and
`photometers_renamed`; those three result lists are the parameters of
the embedding, a value tuple is an `NMRec`, and a Python set of tuples
is a duplicate-free list.  The first statement of the body,
`keys = total[0].keys()`, raises `IndexError` on an empty `total`. -/
def photometers_complicated (total only_repaired only_renamed : List NMRec) :
    Option (List NMRec) :=
  match total with
  | [] => none
  | _ =>
    some (total.dedup.filter fun r =>
      decide (r ∉ only_repaired) && decide (r ∉ only_renamed))

/-- **C3** (amended: `photometers_not_easy` returns at least one entry).
The result holds each value tuple of `photometers_not_easy` that occurs
neither in `photometers_repaired` nor in `photometers_renamed`, each
exactly once. -/
theorem photometers_complicated_spec (total only_repaired only_renamed : List NMRec)
    (hne : total ≠ []) :
    ∃ out, photometers_complicated total only_repaired only_renamed = some out ∧
      out.Nodup ∧
      ∀ r, r ∈ out ↔ r ∈ total ∧ r ∉ only_repaired ∧ r ∉ only_renamed := by
  match total, hne with
  | t :: ts, _ =>
    refine ⟨_, rfl, ?_, fun r => ?_⟩
    · exact (List.nodup_dedup (t :: ts)).filter _
    · simp [List.mem_filter, List.mem_dedup, and_assoc]

/-- Witness for the amended **C3** at concrete inputs: a nonempty
`photometers_not_easy` result (with a duplicate) against a repaired
list, instantiating the amended claim. -/
theorem photometers_complicated_spec_witness :
    ∃ out, photometers_complicated
        [⟨"stars1", "AA", 0, 5, "Current"⟩, ⟨"stars2", "BB", 0, 5, "Current"⟩,
         ⟨"stars1", "AA", 0, 5, "Current"⟩]
        [⟨"stars2", "BB", 0, 5, "Current"⟩] [] = some out ∧
      out.Nodup ∧
      ∀ r, r ∈ out ↔
        (r ∈ [⟨"stars1", "AA", 0, 5, "Current"⟩, ⟨"stars2", "BB", 0, 5, "Current"⟩,
          (⟨"stars1", "AA", 0, 5, "Current"⟩ : NMRec)] ∧
        r ∉ [(⟨"stars2", "BB", 0, 5, "Current"⟩ : NMRec)] ∧ r ∉ ([] : List NMRec)) :=
  photometers_complicated_spec
    [⟨"stars1", "AA", 0, 5, "Current"⟩, ⟨"stars2", "BB", 0, 5, "Current"⟩,
     ⟨"stars1", "AA", 0, 5, "Current"⟩]
    [⟨"stars2", "BB", 0, 5, "Current"⟩] [] (by decide)

/-- Counterexample to **C3** as frozen: on a database state where
`photometers_not_easy` is empty, `total[0]` raises `IndexError`
(embedded as `none`) instead of returning the empty selection. -/
theorem photometers_complicated_empty_raises :
    photometers_complicated [] [] [] = none := rfl

/-! ### the adjacency-chasing loops

`name_mac_previous_related_history` and `name_mac_next_related_history`
run an unbounded `while True` whose body issues one query
(`WHERE valid_until = :tstamp`, resp. `WHERE valid_since = :tstamp`;
the name/MAC arguments only permute the two selected identity columns
and never enter the `WHERE`, so the embedding carries the records
themselves), stops on zero or several rows, and otherwise follows the
single row to its other endpoint.  The loop is embedded with an explicit
fuel argument; exhausting every finite fuel (`none` for all of them)
models the loop running forever. -/

/-- One query of the chase: the rows whose `keyf` endpoint equals the
current timestamp, in `ORDER BY valid_since` order. -/
def relatedFragment (keyf : NMRec → Nat) (table : List NMRec) (t : Nat) : List NMRec :=
  sortBySince (table.filter fun r => decide (keyf r = t))

/-- The shared `while True` loop: `keyf` is the matched endpoint,
`nextf` the endpoint the loop follows (`fragment[0][2]` backwards,
`fragment[0][3]` forwards). -/
def chase (keyf nextf : NMRec → Nat) (table : List NMRec) :
    Nat → Nat → List NMRec → Option (List NMRec × Bool)
  | 0, _, _ => none
  | fuel + 1, t, acc =>
    match relatedFragment keyf table t with
    | [] => some (acc, false)
    | [r] => chase keyf nextf table fuel (nextf r) (acc ++ [r])
    | frag => some (acc ++ frag, true)

theorem chase_succ (keyf nextf : NMRec → Nat) (table : List NMRec)
    (fuel t : Nat) (acc : List NMRec) :
    chase keyf nextf table (fuel + 1) t acc =
      match relatedFragment keyf table t with
      | [] => some (acc, false)
      | [r] => chase keyf nextf table fuel (nextf r) (acc ++ [r])
      | frag => some (acc ++ frag, true) := rfl

/-- Embedding of `tessdb.name_mac_previous_related_history`: chase
`valid_until = tstamp` backwards through `valid_since`, then reverse the
collected history. -/
def name_mac_previous_related_history (fuel : Nat) (table : List NMRec)
    (start_tstamp : Nat) : Option (List NMRec × Bool) :=
  (chase (fun r => r.valid_until) (fun r => r.valid_since) table fuel start_tstamp
    []).map fun p => (p.1.reverse, p.2)

/-- Embedding of `tessdb.name_mac_next_related_history`: chase
`valid_since = tstamp` forwards through `valid_until`. -/
def name_mac_next_related_history (fuel : Nat) (table : List NMRec)
    (end_tstamp : Nat) : Option (List NMRec × Bool) :=
  chase (fun r => r.valid_since) (fun r => r.valid_until) table fuel end_tstamp []

/-- The timestamps the chase visits: `t₀`, then repeatedly the other
endpoint of the unique matching row, undefined once the loop would stop. -/
def chaseSeq (keyf nextf : NMRec → Nat) (table : List NMRec) (t₀ : Nat) :
    Nat → Option Nat
  | 0 => some t₀
  | k + 1 =>
    match chaseSeq keyf nextf table t₀ k with
    | none => none
    | some t =>
      match relatedFragment keyf table t with
      | [r] => some (nextf r)
      | _ => none

theorem chaseSeq_succ (keyf nextf : NMRec → Nat) (table : List NMRec)
    (t₀ k : Nat) :
    chaseSeq keyf nextf table t₀ (k + 1) =
      match chaseSeq keyf nextf table t₀ k with
      | none => none
      | some t =>
        match relatedFragment keyf table t with
        | [r] => some (nextf r)
        | _ => none := rfl

/-- The chain of records linked by the chased endpoints never revisits a
timestamp (within the only horizon that matters, one step per table
row). -/
def noRevisit (keyf nextf : NMRec → Nat) (table : List NMRec) (t₀ : Nat) : Prop :=
  ∀ i, i ≤ table.length → ∀ j, j ≤ table.length →
    chaseSeq keyf nextf table t₀ i = chaseSeq keyf nextf table t₀ j →
    chaseSeq keyf nextf table t₀ i = none ∨ i = j

instance (keyf nextf : NMRec → Nat) (table : List NMRec) (t₀ : Nat) :
    Decidable (noRevisit keyf nextf table t₀) := by
  unfold noRevisit
  infer_instance

/-- The backward loop runs forever from `t₀` on this table. -/
def prevHistoryDiverges (table : List NMRec) (t₀ : Nat) : Prop :=
  ∀ fuel, name_mac_previous_related_history fuel table t₀ = none

/-- The forward loop runs forever from `t₀` on this table. -/
def nextHistoryDiverges (table : List NMRec) (t₀ : Nat) : Prop :=
  ∀ fuel, name_mac_next_related_history fuel table t₀ = none

/-- A record whose validity interval is a single instant: the chain
`valid_until = valid_since` revisits its timestamp immediately. -/
def cycRecord : NMRec :=
  ⟨"stars1", "AA:AA:AA:AA:AA:AA", 100, 100, "Current"⟩

theorem chase_self_loop {keyf nextf : NMRec → Nat} {table : List NMRec}
    {t : Nat} {r : NMRec} (hfrag : relatedFragment keyf table t = [r])
    (hnext : nextf r = t) :
    ∀ fuel acc, chase keyf nextf table fuel t acc = none := by
  intro fuel
  induction fuel with
  | zero => intro acc; rfl
  | succ f ih =>
    intro acc
    rw [chase_succ, hfrag]
    show chase keyf nextf table f (nextf r) (acc ++ [r]) = none
    rw [hnext]
    exact ih (acc ++ [r])

/-- Counterexample to **C2** as frozen: on a database state whose linked
chain revisits a timestamp (a single record with
`valid_since = valid_until`), both adjacency-chasing loops run forever —
every finite number of iterations leaves the loop still going. -/
theorem related_history_diverges_on_cycle :
    prevHistoryDiverges [cycRecord] 100 ∧ nextHistoryDiverges [cycRecord] 100 := by
  have hfragP : relatedFragment (fun r => r.valid_until) [cycRecord] 100 =
      [cycRecord] := by decide
  have hfragN : relatedFragment (fun r => r.valid_since) [cycRecord] 100 =
      [cycRecord] := by decide
  constructor
  · intro fuel
    rw [name_mac_previous_related_history,
      chase_self_loop hfragP rfl fuel []]
    rfl
  · intro fuel
    rw [name_mac_next_related_history]
    exact chase_self_loop hfragN rfl fuel []

theorem chaseSeq_none_mono {keyf nextf : NMRec → Nat} {table : List NMRec}
    {t₀ k : Nat} (h : chaseSeq keyf nextf table t₀ k = none) :
    chaseSeq keyf nextf table t₀ (k + 1) = none := by
  rw [chaseSeq_succ, h]

theorem chaseSeq_defined_of_le {keyf nextf : NMRec → Nat} {table : List NMRec}
    {t₀ : Nat} :
    ∀ {k j}, j ≤ k → chaseSeq keyf nextf table t₀ k ≠ none →
      chaseSeq keyf nextf table t₀ j ≠ none := by
  intro k
  induction k with
  | zero =>
    intro j hj h
    interval_cases j
    exact h
  | succ k ih =>
    intro j hj h
    rcases Nat.lt_or_ge j (k + 1) with hlt | hge
    · have hk : chaseSeq keyf nextf table t₀ k ≠ none := by
        intro hc
        exact h (chaseSeq_none_mono hc)
      exact ih (by omega) hk
    · have : j = k + 1 := by omega
      exact this ▸ h

theorem chaseSeq_succ_some {keyf nextf : NMRec → Nat} {table : List NMRec}
    {t₀ k : Nat} {t' : Nat}
    (h : chaseSeq keyf nextf table t₀ (k + 1) = some t') :
    ∃ t r, chaseSeq keyf nextf table t₀ k = some t ∧
      relatedFragment keyf table t = [r] ∧ nextf r = t' := by
  rw [chaseSeq_succ] at h
  cases hk : chaseSeq keyf nextf table t₀ k with
  | none => rw [hk] at h; exact Option.noConfusion h
  | some t =>
    rw [hk] at h
    have h₂ : (match relatedFragment keyf table t with
      | [r] => some (nextf r)
      | _ => none) = some t' := h
    cases hfrag : relatedFragment keyf table t with
    | nil => rw [hfrag] at h₂; exact Option.noConfusion h₂
    | cons r rest =>
      cases rest with
      | nil =>
        rw [hfrag] at h₂
        exact ⟨t, r, rfl, hfrag, Option.some_inj.mp h₂⟩
      | cons r₂ rest₂ =>
        rw [hfrag] at h₂
        exact Option.noConfusion h₂

theorem relatedFragment_singleton {keyf : NMRec → Nat} {table : List NMRec}
    {t : Nat} {r : NMRec} (h : relatedFragment keyf table t = [r]) :
    r ∈ table ∧ keyf r = t := by
  have hperm := List.perm_insertionSort sinceLE
    (table.filter fun x => decide (keyf x = t))
  rw [show relatedFragment keyf table t =
    List.insertionSort sinceLE (table.filter fun x => decide (keyf x = t)) from rfl]
    at h
  rw [h] at hperm
  have hfilter : table.filter (fun x => decide (keyf x = t)) = [r] :=
    List.perm_singleton.mp hperm.symm
  have hr : r ∈ table.filter fun x => decide (keyf x = t) := by
    rw [hfilter]; exact List.mem_singleton.mpr rfl
  have := List.mem_filter.mp hr
  exact ⟨this.1, by simpa using this.2⟩

theorem chaseSeq_shift {keyf : NMRec → Nat} (nextf : NMRec → Nat)
    {table : List NMRec}
    {t : Nat} {r : NMRec} (hfrag : relatedFragment keyf table t = [r]) :
    ∀ j, chaseSeq keyf nextf table t (j + 1) =
      chaseSeq keyf nextf table (nextf r) j := by
  intro j
  induction j with
  | zero =>
    rw [chaseSeq_succ]
    show (match relatedFragment keyf table t with
      | [r] => some (nextf r)
      | _ => none) = some (nextf r)
    rw [hfrag]
  | succ j ih =>
    rw [chaseSeq_succ, ih, ← chaseSeq_succ]

theorem chase_total_of_seq_none {keyf nextf : NMRec → Nat} {table : List NMRec} :
    ∀ m t acc fuel, chaseSeq keyf nextf table t m = none → m ≤ fuel →
      chase keyf nextf table fuel t acc ≠ none := by
  intro m
  induction m with
  | zero =>
    intro t acc fuel h _
    exact absurd h (by simp [chaseSeq])
  | succ m ih =>
    intro t acc fuel h hle
    match fuel, hle with
    | f + 1, _ =>
      rw [chase_succ]
      cases hfrag : relatedFragment keyf table t with
      | nil => simp
      | cons r rest =>
        cases rest with
        | nil =>
          show chase keyf nextf table f (nextf r) (acc ++ [r]) ≠ none
          have hshift := chaseSeq_shift nextf hfrag m
          exact ih (nextf r) (acc ++ [r]) f (by rw [← hshift]; exact h) (by omega)
        | cons r₂ rest₂ => simp

theorem chaseSeq_terminal {keyf nextf : NMRec → Nat} {table : List NMRec}
    {t₀ : Nat} (h : noRevisit keyf nextf table t₀) :
    chaseSeq keyf nextf table t₀ (table.length + 1) = none := by
  by_contra hk
  have hdef : ∀ j, j ≤ table.length + 1 → chaseSeq keyf nextf table t₀ j ≠ none :=
    fun j hj => chaseSeq_defined_of_le hj hk
  have hmemtable : ∀ j, j ≤ table.length →
      (chaseSeq keyf nextf table t₀ j).getD 0 ∈ table.map keyf := by
    intro j hj
    cases hs : chaseSeq keyf nextf table t₀ (j + 1) with
    | none => exact absurd hs (hdef (j + 1) (by omega))
    | some t' =>
      obtain ⟨t, r, hseqj, hfrag, _⟩ := chaseSeq_succ_some hs
      obtain ⟨hrmem, hkey⟩ := relatedFragment_singleton hfrag
      rw [hseqj]
      exact List.mem_map.mpr ⟨r, hrmem, by simpa using hkey⟩
  have hnodup : (((List.range (table.length + 1)).map
      fun j => (chaseSeq keyf nextf table t₀ j).getD 0)).Nodup := by
    refine List.Nodup.map_on ?_ (List.nodup_range (table.length + 1))
    intro i hi j hj hfij
    have hi₂ : i ≤ table.length := by have := List.mem_range.mp hi; omega
    have hj₂ : j ≤ table.length := by have := List.mem_range.mp hj; omega
    cases hsi : chaseSeq keyf nextf table t₀ i with
    | none => exact absurd hsi (hdef i (by omega))
    | some a =>
      cases hsj : chaseSeq keyf nextf table t₀ j with
      | none => exact absurd hsj (hdef j (by omega))
      | some b =>
        have hab : a = b := by rw [hsi, hsj] at hfij; simpa using hfij
        have heq : chaseSeq keyf nextf table t₀ i = chaseSeq keyf nextf table t₀ j := by
          rw [hsi, hsj, hab]
        rcases h i hi₂ j hj₂ heq with hnone | hij
        · rw [hsi] at hnone; exact Option.noConfusion hnone
        · exact hij
  have hsub : (((List.range (table.length + 1)).map
      fun j => (chaseSeq keyf nextf table t₀ j).getD 0)).toFinset ⊆
      (table.map keyf).toFinset := by
    intro x hx
    rw [List.mem_toFinset] at hx ⊢
    rcases List.mem_map.mp hx with ⟨j, hj, rfl⟩
    exact hmemtable j (by have := List.mem_range.mp hj; omega)
  have hchain : table.length + 1 ≤ table.length := by
    calc table.length + 1
        = (((List.range (table.length + 1)).map
            fun j => (chaseSeq keyf nextf table t₀ j).getD 0)).toFinset.card := by
          rw [List.toFinset_card_of_nodup hnodup]
          simp
      _ ≤ (table.map keyf).toFinset.card := Finset.card_le_card hsub
      _ ≤ (table.map keyf).length := List.toFinset_card_le _
      _ = table.length := List.length_map _ _
  omega

theorem chase_terminates_of_no_revisit {keyf nextf : NMRec → Nat}
    {table : List NMRec} {t₀ : Nat} (h : noRevisit keyf nextf table t₀)
    (acc : List NMRec) :
    chase keyf nextf table (table.length + 1) t₀ acc ≠ none :=
  chase_total_of_seq_none (table.length + 1) t₀ acc (table.length + 1)
    (chaseSeq_terminal h) (Nat.le_refl _)

/-- **C2** (amended: the chain of records linked by
`valid_until = valid_since` never revisits a timestamp).  Both
adjacency-chasing loops then stop within `table.length + 1` iterations
and return; on a state whose chain revisits a timestamp the loops run
forever (see the counterexample). -/
theorem related_history_terminates_of_no_revisit (table : List NMRec)
    (t₀ t₁ : Nat)
    (hprev : noRevisit (fun r => r.valid_until) (fun r => r.valid_since) table t₀)
    (hnext : noRevisit (fun r => r.valid_since) (fun r => r.valid_until) table t₁) :
    name_mac_previous_related_history (table.length + 1) table t₀ ≠ none ∧
    name_mac_next_related_history (table.length + 1) table t₁ ≠ none := by
  constructor
  · rw [name_mac_previous_related_history]
    intro hc
    exact chase_terminates_of_no_revisit hprev [] (Option.map_eq_none'.mp hc)
  · exact chase_terminates_of_no_revisit hnext []

/-- Witness for the amended **C2** on a concrete two-row repair history:
chasing backwards from `9` visits `9, 5, 0` and stops, chasing forwards
from `0` visits `0, 5, 9` and stops, both within three iterations. -/
theorem related_history_terminates_witness :
    name_mac_previous_related_history 3
        [⟨"stars1", "AA", 0, 5, "Expired"⟩, ⟨"stars1", "BB", 5, 9, "Current"⟩]
        9 ≠ none ∧
    name_mac_next_related_history 3
        [⟨"stars1", "AA", 0, 5, "Expired"⟩, ⟨"stars1", "BB", 5, 9, "Current"⟩]
        0 ≠ none :=
  related_history_terminates_of_no_revisit
    [⟨"stars1", "AA", 0, 5, "Expired"⟩, ⟨"stars1", "BB", 5, 9, "Current"⟩]
    9 0 (by decide) (by decide)

end TessdbTools
